import Mathlib

/-!
Verification of the quantized-stream NPU golden model (`src/sw`).

The C++ sources are shallowly embedded: `float` arithmetic is modelled by
exact rational arithmetic (`ℚ`), machine integers by `ℤ`/`ℕ` (the C++ `int`
accumulator never overflows for the 8-bit-bounded inputs considered here,
so no modular reduction is needed), and `std::round` by an explicit
round-half-away-from-zero function on `ℚ`.
-/

namespace NPU

/-- Constant `kArraySize = 4` from the sources. -/
abbrev kArraySize : ℕ := 4

/-- Constant `kDataWidth = 8` from the sources. -/
abbrev kDataWidth : ℕ := 8

/-- Constant `kInt8Max = (1 << (kDataWidth - 1)) - 1 = 127`. -/
abbrev kInt8Max : ℤ := 2 ^ (kDataWidth - 1) - 1

/-- Constant `kInt8Min = -(1 << (kDataWidth - 1)) = -128`. -/
abbrev kInt8Min : ℤ := -(2 ^ (kDataWidth - 1))

/-- Model of `using Matrix = std::array<std::array<int, kArraySize>, kArraySize>;` -/
abbrev Matrix := Fin kArraySize → Fin kArraySize → ℤ

/-- Model of `using FMatrix = std::array<std::array<float, kArraySize>, kArraySize>;`
(float entries modelled as exact rationals) -/
abbrev FMatrix := Fin kArraySize → Fin kArraySize → ℚ

/-- Model of `struct QuantParams { float scale; int zero_point; };` -/
structure QuantParams where
  scale : ℚ
  zero_point : ℤ
deriving DecidableEq

/-- Model of `std::round`: rounds to nearest integer, halfway cases away from zero. -/
def roundHalfAway (q : ℚ) : ℤ :=
  if 0 ≤ q then ⌊q + 1/2⌋ else ⌈q - 1/2⌉

/-- Model of `int8_t quantize(float value, const QuantParams& params)` from
`src/sw/host_demo.cpp`: round the scaled value, add the zero point, then
clamp to `[kInt8Min, kInt8Max]`. -/
def quantize (value : ℚ) (params : QuantParams) : ℤ :=
  let quantized : ℤ := roundHalfAway (value / params.scale) + params.zero_point
  if quantized < kInt8Min then kInt8Min
  else if quantized > kInt8Max then kInt8Max
  else quantized

/-- Model of `float dequantize(int8_t value, const QuantParams& params)` from
`src/sw/host_demo.cpp`. -/
def dequantize (value : ℤ) (params : QuantParams) : ℚ :=
  ((value : ℚ) - (params.zero_point : ℚ)) * params.scale

/-- Model of `QuantParams compute_quant_params(float min_val, float max_val)` from
`src/sw/host_demo.cpp`: symmetric calibration for signed int8. -/
def compute_quant_params (min_val max_val : ℚ) : QuantParams :=
  let abs_max := max |min_val| |max_val|
  if abs_max < 1/100000000 then ⟨1, 0⟩
  else ⟨abs_max / (kInt8Max : ℚ), 0⟩

/-- The while loop inside `int min_acc_width`: repeatedly halve until zero,
counting iterations. -/
def guardLoop (m : ℕ) : ℕ :=
  if h : m = 0 then 0 else 1 + guardLoop (m / 2)
termination_by m
decreasing_by exact Nat.div_lt_self (Nat.pos_of_ne_zero h) one_lt_two

/-- Model of `int min_acc_width(int data_width, int array_size)` from
`src/sw/host_demo.cpp`. -/
def min_acc_width (data_width array_size : ℕ) : ℕ :=
  2 * data_width + guardLoop (array_size - 1)

/-- Model of `Matrix gemm(const Matrix& a, const Matrix& b)` from
`src/sw/host_demo.cpp`: the inner `for (k) sum += a[i][k] * b[k][j]` loop
is a left fold over `k = 0, 1, 2, 3` starting from `sum = 0`. -/
def gemm (a b : Matrix) : Matrix := fun i j =>
  (List.finRange kArraySize).foldl (fun sum k => sum + a i k * b k j) 0

/-- Model of `Matrix relu(const Matrix& m)` from `src/sw/host_demo.cpp`: negative
entries are replaced by zero, others copied unchanged. -/
def relu (m : Matrix) : Matrix := fun i j =>
  if m i j < 0 then 0 else m i j

/-- Model of `FMatrix relu_float(const FMatrix& m)` from `src/sw/host_demo.cpp`. -/
def relu_float (m : FMatrix) : FMatrix := fun i j =>
  if m i j < 0 then 0 else m i j

/-- Model of `std::vector<int> stream_order(const Matrix& m)` from
`src/sw/host_demo.cpp`: push the entries row by row, each row left to
right. -/
def stream_order (m : Matrix) : List ℤ :=
  (List.finRange kArraySize).flatMap fun r =>
    (List.finRange kArraySize).map fun c => m r c

/-! ## Helper lemmas -/

/-- The concrete list of indices the loops traverse. -/
theorem finRange_four : List.finRange kArraySize = [0, 1, 2, 3] := rfl

/-- The inner accumulation loop of `gemm` computes the dot product of row
`i` of `a` with column `j` of `b`. -/
theorem gemm_apply (a b : Matrix) (i j : Fin kArraySize) :
    gemm a b i j = ∑ k : Fin kArraySize, a i k * b k j := by
  show (List.finRange kArraySize).foldl (fun sum k => sum + a i k * b k j) 0 = _
  rw [finRange_four]
  simp [Fin.sum_univ_four, List.foldl]

/-- Rounding half away from zero moves a rational by at most one half. -/
theorem abs_roundHalfAway_sub_le (q : ℚ) : |(roundHalfAway q : ℚ) - q| ≤ 1/2 := by
  unfold roundHalfAway
  split
  · rw [abs_le]
    constructor <;>
      linarith [Int.floor_le (q + 1/2), Int.lt_floor_add_one (q + 1/2)]
  · rw [abs_le]
    constructor <;>
      linarith [Int.le_ceil (q - 1/2), Int.ceil_lt_add_one (q - 1/2)]

/-- Rounding half away from zero maps `[-127, 127]` into `[-127, 127]`. -/
theorem roundHalfAway_bounds (t : ℚ) (h1 : -127 ≤ t) (h2 : t ≤ 127) :
    -127 ≤ roundHalfAway t ∧ roundHalfAway t ≤ 127 := by
  unfold roundHalfAway
  split
  · constructor
    · have h0 : (0:ℤ) ≤ ⌊t + 1/2⌋ := by positivity
      omega
    · have h3 : (⌊t + 1/2⌋ : ℚ) ≤ t + 1/2 := Int.floor_le _
      have h4 : (⌊t + 1/2⌋ : ℚ) < 128 := by linarith
      have h5 : ⌊t + 1/2⌋ < (128:ℤ) := by exact_mod_cast h4
      omega
  · constructor
    · have h3 : t - 1/2 ≤ (⌈t - 1/2⌉ : ℚ) := Int.le_ceil _
      have h5 : (-128 : ℚ) < (⌈t - 1/2⌉ : ℚ) := by linarith
      have h6 : (-128 : ℤ) < ⌈t - 1/2⌉ := by exact_mod_cast h5
      omega
    · have h4 : (⌈t - 1/2⌉ : ℚ) < t - 1/2 + 1 := Int.ceil_lt_add_one _
      have h5 : (⌈t - 1/2⌉ : ℚ) < 128 := by linarith
      have h6 : ⌈t - 1/2⌉ < (128:ℤ) := by exact_mod_cast h5
      omega

/-- The halving loop of `min_acc_width` computes the base-2 ceiling
logarithm of `array_size`. -/
theorem guardLoop_eq_clog (s : ℕ) (hs : 1 ≤ s) :
    guardLoop (s - 1) = Nat.clog 2 s := by
  induction s using Nat.strong_induction_on with
  | _ s ih =>
    rcases Nat.lt_or_ge s 2 with h2 | h2
    · interval_cases s
      · simp [guardLoop, Nat.clog]
    · have hrec : Nat.clog 2 s = Nat.clog 2 ((s + 1) / 2) + 1 :=
        Nat.clog_of_two_le (by norm_num) h2
      rw [hrec, guardLoop]
      simp only [show s - 1 ≠ 0 by omega, dif_neg, not_false_iff]
      have heq : (s - 1) / 2 = (s + 1) / 2 - 1 := by omega
      rw [heq, ih ((s + 1) / 2) (by omega) (by omega)]
      omega

/-- Products of saturated 8-bit values are bounded by `2^14`. -/
theorem prodBound (x y : ℤ) (hx1 : kInt8Min ≤ x) (hx2 : x ≤ kInt8Max)
    (hy1 : kInt8Min ≤ y) (hy2 : y ≤ kInt8Max) :
    -16384 ≤ x * y ∧ x * y ≤ 16384 := by
  norm_num at hx1 hx2 hy1 hy2
  constructor <;> nlinarith

/-- Quantization with a positive scale and zero zero-point reduces to
rounding when the rounded value is already inside the int8 range. -/
theorem quantize_eq_of_mem (x s : ℚ)
    (h1 : -127 ≤ roundHalfAway (x / s)) (h2 : roundHalfAway (x / s) ≤ 127) :
    quantize x ⟨s, 0⟩ = roundHalfAway (x / s) := by
  unfold quantize
  simp only [add_zero]
  split_ifs with hlt hgt
  · norm_num at hlt; omega
  · norm_num at hgt; omega
  · rfl

/-- Round trip through quantize/dequantize with a positive scale and zero
zero-point stays within half a quantization step, provided the scaled
value is inside the representable range. -/
theorem round_trip_general (x s : ℚ) (hs : 0 < s) (hx : |x / s| ≤ 127) :
    |dequantize (quantize x ⟨s, 0⟩) ⟨s, 0⟩ - x| ≤ s / 2 := by
  obtain ⟨hb1, hb2⟩ := roundHalfAway_bounds (x / s) (abs_le.mp hx).1 (abs_le.mp hx).2
  rw [quantize_eq_of_mem x s hb1 hb2]
  unfold dequantize
  simp only [Int.cast_zero, sub_zero]
  have key : (roundHalfAway (x / s) : ℚ) * s - x
      = ((roundHalfAway (x / s) : ℚ) - x / s) * s := by
    rw [sub_mul, div_mul_cancel₀ x (ne_of_gt hs)]
  rw [key, abs_mul, abs_of_pos hs]
  have := abs_roundHalfAway_sub_le (x / s)
  nlinarith

/-! ## Claim theorems -/

/-- C1: for 4×4 integer matrices with entries in the saturated 8-bit range
`[-128, 127]`, `gemm` returns the exact integer matrix product, each cell
being the untruncated sum over `k` of `A[i][k] * B[k][j]`. -/
theorem gemm_exact_product (a b : Matrix)
    (ha : ∀ i k, kInt8Min ≤ a i k ∧ a i k ≤ kInt8Max)
    (hb : ∀ k j, kInt8Min ≤ b k j ∧ b k j ≤ kInt8Max)
    (i j : Fin kArraySize) :
    gemm a b i j = ∑ k : Fin kArraySize, a i k * b k j :=
  gemm_apply a b i j

/-- Witness for C1 at the all-ones and all-twos matrices. -/
theorem gemm_exact_product_witness :
    gemm (fun _ _ => 1) (fun _ _ => 2) 0 0
      = ∑ k : Fin kArraySize,
          (fun (_ _ : Fin kArraySize) => (1:ℤ)) 0 k *
          (fun (_ _ : Fin kArraySize) => (2:ℤ)) k 0 :=
  gemm_exact_product (fun _ _ => 1) (fun _ _ => 2)
    (fun _ _ => by norm_num) (fun _ _ => by norm_num) 0 0

/-- C2: for positive scale and zero zero-point, `quantize` always lands in
`[kInt8Min, kInt8Max]`; a scaled rounded value above the range clamps
exactly to `kInt8Max` and one below clamps exactly to `kInt8Min`. -/
theorem quantize_saturates (x : ℚ) (p : QuantParams)
    (hs : 0 < p.scale) (hz : p.zero_point = 0) :
    kInt8Min ≤ quantize x p ∧ quantize x p ≤ kInt8Max ∧
    (kInt8Max < roundHalfAway (x / p.scale) + p.zero_point →
      quantize x p = kInt8Max) ∧
    (roundHalfAway (x / p.scale) + p.zero_point < kInt8Min →
      quantize x p = kInt8Min) := by
  have hmin : kInt8Min = -128 := by norm_num
  have hmax : kInt8Max = 127 := by norm_num
  simp only [quantize, hmin, hmax]
  refine ⟨?_, ?_, ?_, ?_⟩ <;> (split_ifs <;> omega)

/-- Witness for C2: the out-of-range input 200 with unit scale clamps to
`kInt8Max = 127`. -/
theorem quantize_saturates_witness :
    kInt8Min ≤ quantize 200 ⟨1, 0⟩ ∧ quantize 200 ⟨1, 0⟩ ≤ kInt8Max ∧
    (kInt8Max < roundHalfAway (200 / QuantParams.scale ⟨1, 0⟩) +
        QuantParams.zero_point ⟨1, 0⟩ →
      quantize 200 ⟨1, 0⟩ = kInt8Max) ∧
    (roundHalfAway (200 / QuantParams.scale ⟨1, 0⟩) +
        QuantParams.zero_point ⟨1, 0⟩ < kInt8Min →
      quantize 200 ⟨1, 0⟩ = kInt8Min) :=
  quantize_saturates 200 ⟨1, 0⟩ (by norm_num) rfl

/-- C3: `compute_quant_params` always returns `zero_point = 0` and a
strictly positive scale: `1` in the degenerate case
`max(|min_val|, |max_val|) < 1e-8` and `abs_max / 127` otherwise; no
ordering of `min_val` and `max_val` is assumed. -/
theorem compute_quant_params_spec (min_val max_val : ℚ) :
    (compute_quant_params min_val max_val).zero_point = 0 ∧
    0 < (compute_quant_params min_val max_val).scale ∧
    (compute_quant_params min_val max_val).scale =
      (if max |min_val| |max_val| < 1/100000000 then 1
       else max |min_val| |max_val| / (kInt8Max : ℚ)) := by
  rcases lt_or_le (max |min_val| |max_val|) (1/100000000) with h | h
  · have hp : compute_quant_params min_val max_val = ⟨1, 0⟩ := by
      unfold compute_quant_params
      rw [if_pos h]
    rw [hp, if_pos h]
    norm_num
  · have hp : compute_quant_params min_val max_val
        = ⟨max |min_val| |max_val| / (kInt8Max : ℚ), 0⟩ := by
      unfold compute_quant_params
      rw [if_neg (not_lt.mpr h)]
    rw [hp, if_neg (not_lt.mpr h)]
    refine ⟨rfl, ?_, rfl⟩
    have h2 : (0:ℚ) < max |min_val| |max_val| := by linarith
    apply div_pos h2
    norm_num

/-- C4: any input whose magnitude is at most the calibrated
`abs_max = max(|min_val|, |max_val|)` reconstructs through
quantize-then-dequantize to within half a quantization step. -/
theorem round_trip_error_bound (min_val max_val x : ℚ)
    (hx : |x| ≤ max |min_val| |max_val|) :
    |dequantize (quantize x (compute_quant_params min_val max_val))
        (compute_quant_params min_val max_val) - x|
      ≤ (compute_quant_params min_val max_val).scale / 2 := by
  rcases lt_or_le (max |min_val| |max_val|) (1/100000000) with h | h
  · have hp : compute_quant_params min_val max_val = ⟨1, 0⟩ := by
      unfold compute_quant_params
      rw [if_pos h]
    rw [hp]
    have hx1 : |x / 1| ≤ 127 := by
      rw [div_one]
      calc |x| ≤ max |min_val| |max_val| := hx
        _ ≤ 1/100000000 := le_of_lt h
        _ ≤ 127 := by norm_num
    exact round_trip_general x 1 one_pos hx1
  · have hp : compute_quant_params min_val max_val
        = ⟨max |min_val| |max_val| / (kInt8Max : ℚ), 0⟩ := by
      unfold compute_quant_params
      rw [if_neg (not_lt.mpr h)]
    rw [hp]
    have hA : (0:ℚ) < max |min_val| |max_val| := by
      have h1 : (1:ℚ)/100000000 ≤ max |min_val| |max_val| := h
      linarith
    have hs : (0:ℚ) < max |min_val| |max_val| / (kInt8Max : ℚ) := by
      apply div_pos hA
      norm_num
    have hx1 : |x / (max |min_val| |max_val| / (kInt8Max : ℚ))| ≤ 127 := by
      rw [abs_div, abs_of_pos hs, div_le_iff₀ hs]
      have hc : (kInt8Max : ℚ) = 127 := by norm_num
      rw [hc]
      have hr : (127:ℚ) * (max |min_val| |max_val| / 127)
          = max |min_val| |max_val| := by
        field_simp
      rw [hr]
      exact hx
    exact round_trip_general x _ hs hx1

/-- Witness for C4 at the range `[-100, 100]` with input 50. -/
theorem round_trip_error_bound_witness :
    |dequantize (quantize 50 (compute_quant_params (-100) 100))
        (compute_quant_params (-100) 100) - 50|
      ≤ (compute_quant_params (-100) 100).scale / 2 :=
  round_trip_error_bound (-100) 100 50 (by
    rw [show |(50:ℚ)| = 50 from abs_of_nonneg (by norm_num)]
    rw [show |(-100:ℚ)| = 100 from by rw [abs_neg]; exact abs_of_nonneg (by norm_num)]
    rw [show |(100:ℚ)| = 100 from abs_of_nonneg (by norm_num)]
    norm_num)

/-- C5: `min_acc_width` equals `2 * element_width + ceil(log2 array_size)`
for every `array_size ≥ 1`, and in particular `min_acc_width 8 4 = 18` and
`min_acc_width 8 1 = 16`. -/
theorem min_acc_width_spec (w s : ℕ) (hs : 1 ≤ s) :
    min_acc_width w s = 2 * w + Nat.clog 2 s ∧
    min_acc_width 8 4 = 18 ∧ min_acc_width 8 1 = 16 := by
  refine ⟨?_, ?_, ?_⟩
  · unfold min_acc_width
    rw [guardLoop_eq_clog s hs]
  · simp [min_acc_width, guardLoop]
  · simp [min_acc_width, guardLoop]

/-- Witness for C5 at width 8 and array size 4. -/
theorem min_acc_width_spec_witness :
    min_acc_width 8 4 = 2 * 8 + Nat.clog 2 4 ∧
    min_acc_width 8 4 = 18 ∧ min_acc_width 8 1 = 16 :=
  min_acc_width_spec 8 4 (by norm_num)

/-- C6: with all entries in `[-128, 127]`, every cell of the 4×4 `gemm`
product fits in a signed `min_acc_width 8 4 = 18`-bit accumulator, i.e.
lies in `[-2^17, 2^17 - 1]`. -/
theorem gemm_fits_acc_width (a b : Matrix)
    (ha : ∀ i k, kInt8Min ≤ a i k ∧ a i k ≤ kInt8Max)
    (hb : ∀ k j, kInt8Min ≤ b k j ∧ b k j ≤ kInt8Max)
    (i j : Fin kArraySize) :
    min_acc_width kDataWidth kArraySize = 18 ∧
    -(2 ^ (18 - 1)) ≤ gemm a b i j ∧ gemm a b i j ≤ 2 ^ (18 - 1) - 1 := by
  have e := gemm_apply a b i j
  rw [Fin.sum_univ_four] at e
  have h0 := prodBound _ _ (ha i 0).1 (ha i 0).2 (hb 0 j).1 (hb 0 j).2
  have h1 := prodBound _ _ (ha i 1).1 (ha i 1).2 (hb 1 j).1 (hb 1 j).2
  have h2 := prodBound _ _ (ha i 2).1 (ha i 2).2 (hb 2 j).1 (hb 2 j).2
  have h3 := prodBound _ _ (ha i 3).1 (ha i 3).2 (hb 3 j).1 (hb 3 j).2
  refine ⟨?_, ?_, ?_⟩
  · show min_acc_width 8 4 = 18
    simp [min_acc_width, guardLoop]
  all_goals
    rw [e]; norm_num; linarith [h0.1, h0.2, h1.1, h1.2, h2.1, h2.2, h3.1, h3.2]

/-- Witness for C6 at the all-127 and all-(-128) matrices. -/
theorem gemm_fits_acc_width_witness :
    min_acc_width kDataWidth kArraySize = 18 ∧
    -(2 ^ (18 - 1)) ≤ gemm (fun _ _ => 127) (fun _ _ => -128) 0 0 ∧
    gemm (fun _ _ => 127) (fun _ _ => -128) 0 0 ≤ 2 ^ (18 - 1) - 1 :=
  gemm_fits_acc_width (fun _ _ => 127) (fun _ _ => -128)
    (fun _ _ => by norm_num) (fun _ _ => by norm_num) 0 0

/-- C7: halfway cases round away from zero: for every integer `m`,
`roundHalfAway (m + 1/2)` is the neighbouring integer farther from zero,
and with unit scale `quantize` maps `0.5` to `1` and `-0.5` to `-1`. -/
theorem quantize_rounds_half_away (m : ℤ) :
    roundHalfAway ((m : ℚ) + 1/2) = (if 0 ≤ m then m + 1 else m) ∧
    quantize (1/2) ⟨1, 0⟩ = 1 ∧ quantize (-(1/2)) ⟨1, 0⟩ = -1 := by
  refine ⟨?_, ?_, ?_⟩
  · unfold roundHalfAway
    rcases le_or_lt 0 m with hm | hm
    · have hm2 : (0:ℚ) ≤ (m:ℚ) := by exact_mod_cast hm
      rw [if_pos (show (0:ℚ) ≤ (m:ℚ) + 1/2 by linarith), if_pos hm]
      have harg : (m : ℚ) + 1/2 + 1/2 = ((m + 1 : ℤ) : ℚ) := by push_cast; ring
      rw [harg, Int.floor_intCast]
    · have hm1 : m ≤ -1 := by omega
      have hm2 : (m:ℚ) ≤ -1 := by exact_mod_cast hm1
      rw [if_neg (not_le.mpr (show (m:ℚ) + 1/2 < 0 by linarith)),
        if_neg (not_le.mpr hm)]
      have harg : (m : ℚ) + 1/2 - 1/2 = ((m : ℤ) : ℚ) := by push_cast; ring
      rw [harg, Int.ceil_intCast]
  · norm_num [quantize, roundHalfAway]
  · norm_num [quantize, roundHalfAway]
    exact_mod_cast Int.ceil_intCast (α := ℚ) (-1)

/-- C8: zero survives the quantize/dequantize round trip exactly for every
calibration range. -/
theorem zero_preservation (min_val max_val : ℚ) :
    dequantize (quantize 0 (compute_quant_params min_val max_val))
      (compute_quant_params min_val max_val) = 0 := by
  rcases lt_or_le (max |min_val| |max_val|) (1/100000000) with h | h
  · have hp : compute_quant_params min_val max_val = ⟨1, 0⟩ := by
      unfold compute_quant_params
      rw [if_pos h]
    rw [hp]
    norm_num [quantize, dequantize, roundHalfAway]
  · have hp : compute_quant_params min_val max_val
        = ⟨max |min_val| |max_val| / (kInt8Max : ℚ), 0⟩ := by
      unfold compute_quant_params
      rw [if_neg (not_lt.mpr h)]
    rw [hp]
    norm_num [quantize, dequantize, roundHalfAway, zero_div]

/-- C9: `relu` and `relu_float` compute the element-wise maximum with
zero, leave nonnegative entries unchanged with no upper clipping, and are
idempotent. -/
theorem relu_spec (m : Matrix) (fm : FMatrix) (i j : Fin kArraySize) :
    relu m i j = max 0 (m i j) ∧
    relu_float fm i j = max 0 (fm i j) ∧
    relu (relu m) = relu m ∧
    relu_float (relu_float fm) = relu_float fm := by
  refine ⟨?_, ?_, ?_, ?_⟩
  · unfold relu
    split_ifs with h
    · exact (max_eq_left h.le).symm
    · exact (max_eq_right (not_lt.mp h)).symm
  · unfold relu_float
    split_ifs with h
    · exact (max_eq_left h.le).symm
    · exact (max_eq_right (not_lt.mp h)).symm
  · funext r c
    simp only [relu]
    split_ifs <;> first | rfl | omega
  · funext r c
    simp only [relu_float]
    split_ifs <;> first | rfl | linarith

/-- C10: `stream_order` flattens the 4×4 matrix into exactly 16 values in
strict row-major order: position `r*4 + c` holds `M[r][c]`. -/
theorem stream_order_row_major (m : Matrix) :
    (stream_order m).length = kArraySize * kArraySize ∧
    ∀ r c : Fin kArraySize,
      (stream_order m).getD (r.val * kArraySize + c.val) 0 = m r c := by
  constructor
  · have h16 : kArraySize * kArraySize = 16 := rfl
    rw [stream_order, finRange_four, h16]
    simp
  · intro r c
    rw [stream_order, finRange_four]
    fin_cases r <;> fin_cases c <;> rfl

end NPU
